import Mathlib

/-
  Verification of the OmniBridge binary-protocol gateway core
  (github.com/chuanjin/OmniBridge).

  Shallow embedding of the Go sources:
    internal/parser/dispatcher.go  — trie-based longest-prefix dispatcher
    internal/parser/engine.go      — caching execution engine
    internal/parser/discovery.go   — discovery / repair pipeline and sanitizer
    the parser manager             — persistence, source cache, manifest

  Frames and signatures are lists of bytes (Nat, reduced mod 256 where the
  code formats them); the oracle (LLM HTTP call) is a parameter carrying the
  generated text; disk writes are parameterised by their outcome; Go maps are
  represented as association lists or as functions to Option.
-/

namespace OmniBridge

/-- A byte, as used in Go frames and signatures.  Values are taken mod 256
by the hex formatter, mirroring Go's fixed-width byte formatting. -/
abbrev Byte := Nat

/-! ## Hex formatting, mirroring Go fmt.Sprintf "%X" on a byte slice -/

/-- Uppercase hex digit for a value below 16. -/
def hexDigit (n : Nat) : Char :=
  if n < 10 then Char.ofNat (48 + n) else Char.ofNat (55 + n)

/-- Two-digit uppercase hex rendering of one byte, as Go "%X" prints each
byte of a slice. -/
def byteHexChars (b : Byte) : List Char :=
  [hexDigit ((b % 256) / 16), hexDigit ((b % 256) % 16)]

/-- Go fmt.Sprintf "%X" applied to a byte slice: two uppercase hex digits per
byte, concatenated. -/
def hexUpper (bs : List Byte) : String :=
  ⟨(bs.map byteHexChars).flatten⟩

/-! ## Hex decoding, mirroring encoding/hex.DecodeString -/

/-- Value of one hex digit character, none for a non-hex character. -/
def hexDigitVal (c : Char) : Option Nat :=
  if '0' ≤ c ∧ c ≤ '9' then some (c.toNat - 48)
  else if 'A' ≤ c ∧ c ≤ 'F' then some (c.toNat - 55)
  else if 'a' ≤ c ∧ c ≤ 'f' then some (c.toNat - 87)
  else none

/-- encoding/hex.DecodeString on a list of characters: consumes pairs of hex
digits; an odd tail or a non-hex digit stops the decode (the Go callers
ignore the error and keep the bytes decoded so far). -/
def hexPairsToBytes : List Char → List Byte
  | c1 :: c2 :: rest =>
    match hexDigitVal c1, hexDigitVal c2 with
    | some h, some l => (16 * h + l) :: hexPairsToBytes rest
    | _, _ => []
  | _ => []

/-! ## The dispatcher trie (internal/parser/dispatcher.go) -/

/-- A node of the dispatcher's byte-keyed trie.  children models the Go
map from byte to child pointer; protocolID is "" when the node carries no
binding, exactly as the Go zero value. -/
inductive TrieNode where
  | mk (children : Byte → Option TrieNode) (protocolID : String)

/-- The child map of a trie node. -/
def TrieNode.children : TrieNode → Byte → Option TrieNode
  | .mk c _ => c

/-- The protocol id stored at a trie node ("" when absent). -/
def TrieNode.protocolID : TrieNode → String
  | .mk _ p => p

/-- A freshly allocated trie node: no children, empty protocol id. -/
def emptyNode : TrieNode := .mk (fun _ => none) ""

/-- Trie insertion, mirroring the loop of Dispatcher.Bind: walk the
signature, creating missing children, and set protocolID at the final
node. -/
def trieInsert : TrieNode → List Byte → String → TrieNode
  | .mk ch _, [], pid => .mk ch pid
  | .mk ch pid, b :: rest, newPid =>
    let child := (ch b).getD emptyNode
    .mk (fun b' => if b' = b then some (trieInsert child rest newPid) else ch b') pid

/-- The node reached from a trie node by following a byte path, if the whole
path exists. -/
def nodeAt : TrieNode → List Byte → Option TrieNode
  | t, [] => some t
  | t, b :: rest =>
    match t.children b with
    | some c => nodeAt c rest
    | none => none

/-- The protocol id stored at the end of a byte path ("" when the path is
missing or the node carries none). -/
def pidAt (t : TrieNode) (path : List Byte) : String :=
  match nodeAt t path with
  | some n => n.protocolID
  | none => ""

/-- The trie walk of Dispatcher.Ingest: follow the frame byte-by-byte,
remembering the protocol id of the deepest visited node that carries one;
stop at the first byte with no child. -/
def trieWalk : TrieNode → List Byte → String → String
  | _, [], acc => acc
  | t, b :: rest, acc =>
    match t.children b with
    | some next =>
      trieWalk next rest (if next.protocolID ≠ "" then next.protocolID else acc)
    | none => acc

/-! ## Association-list helpers for Go string maps -/

/-- Lookup in an association list, modelling a read of a Go map. -/
def assocLookup : List (String × String) → String → Option String
  | [], _ => none
  | (k, v) :: rest, q => if k = q then some v else assocLookup rest q

/-- Map assignment m[k] = v on an association list: overwrite the existing
entry for k, or append a new one. -/
def assocSet : List (String × String) → String → String → List (String × String)
  | [], k, v => [(k, v)]
  | (k', v') :: rest, k, v =>
    if k' = k then (k, v) :: rest else (k', v') :: assocSet rest k v

/-- The dispatcher state: the routes map (hex signature to protocol id) and
the trie root, as in the Dispatcher struct. -/
structure DispState where
  routes : List (String × String)
  root : TrieNode

/-- NewDispatcher: empty routes, fresh root. -/
def newDispatcher : DispState :=
  { routes := [], root := emptyNode }

/-- Dispatcher.Bind: record the binding in the routes map under the hex
signature and insert it into the trie. -/
def dispatcherBind (d : DispState) (signature : List Byte) (protocolID : String) :
    DispState :=
  { routes := assocSet d.routes (hexUpper signature) protocolID
    root := trieInsert d.root signature protocolID }

/-- A sequence of Bind calls applied in order to a fresh dispatcher. -/
def buildDispatcher (bs : List (List Byte × String)) : DispState :=
  bs.foldl (fun d p => dispatcherBind d p.1 p.2) newDispatcher

/-- The binding currently in effect for an exact signature after the Bind
calls in bs (the last write wins, as in a Go map). -/
def boundTo : List (List Byte × String) → List Byte → Option String
  | [], _ => none
  | (s, p) :: rest, q =>
    match boundTo rest q with
    | some r => some r
    | none => if s = q then some p else none

/-! ## Parser values and the execution engine (internal/parser/engine.go) -/

/-- A value in the string-keyed mapping a parser returns. -/
inductive Val where
  | i (n : Int)
  | s (str : String)
  deriving DecidableEq

/-- The mapping a parser returns (Go map[string]interface, as key/value
pairs). -/
abbrev RecMap := List (String × Val)

/-- The outcome of running a compiled parser on a frame: a normal return
(none models a Go nil map) or a runtime fault that Go would surface as a
panic.  The wall-clock execution deadline lies outside this model. -/
inductive ParserOutcome where
  | ret (m : Option RecMap)
  | fault (msg : String)
  deriving DecidableEq

/-- A compiled parser: the semantics of a dynamic.Parse entry point. -/
abbrev ParserFunc := List Byte → ParserOutcome

/-- The engine state: the compiled-parser cache keyed by cache key
(normally the protocol id). -/
structure EngineState where
  cache : String → Option ParserFunc

/-- NewEngine: empty compiled cache. -/
def newEngine : EngineState := { cache := fun _ => none }

/-- Engine.ClearCache: drop the compiled entry for one key. -/
def clearCache (id : String) (e : EngineState) : EngineState :=
  { cache := fun k => if k = id then none else e.cache k }

/-- The goroutine body of ExecuteWithContext: run the resolved parser,
converting a runtime fault into the engine's PANIC error. -/
def runParserFn (fn : ParserFunc) (rawData : List Byte) :
    Except String (Option RecMap) :=
  match fn rawData with
  | .ret m => .ok m
  | .fault msg => .error ("PANIC: " ++ msg)

/-- Engine.ExecuteWithContext: use the cached compiled parser for the id if
present; otherwise compile the supplied source (the compile parameter
stands for the yaegi interpreter), cache it on success, then run it.
Compile errors are returned unchanged; the timeout branch of the Go select
is outside this model. -/
def executeWithContext (compile : String → Except String ParserFunc)
    (id : String) (rawData : List Byte) (goCode : String) (e : EngineState) :
    Except String (Option RecMap) × EngineState :=
  match e.cache id with
  | some fn => (runParserFn fn rawData, e)
  | none =>
    match compile goCode with
    | .error err => (.error err, e)
    | .ok fn =>
      (runParserFn fn rawData, { cache := fun k => if k = id then some fn else e.cache k })

/-- The parser ExecuteWithContext will run for a given id and source: the
cached entry when present, else the result of compiling the source. -/
def resolvedParser (compile : String → Except String ParserFunc)
    (id goCode : String) (e : EngineState) : Option ParserFunc :=
  match e.cache id with
  | some fn => some fn
  | none =>
    match compile goCode with
    | .ok fn => some fn
    | .error _ => none

/-! ## JSON values for the manifest file -/

/-- The fragment of JSON needed by manifest.json.  Objects carry their
fields as a list; Go's MarshalIndent prints map keys in sorted order, a
rendering detail of the text layer: a Go map value is represented here as
its canonical key-sorted field list. -/
inductive Json where
  | str (s : String)
  | obj (fields : List (String × Json))

/-! ## The parser manager (unnamed/part_008) -/

/-- The manager state: the storage directory contents, the in-memory source
cache (protocol id to source code) and the manifest file, plus the engine
the manager owns. -/
structure ManagerState where
  files : List (String × String)
  cache : String → Option String
  manifestFile : Option Json
  engine : EngineState

/-- NewParserManager: empty storage, empty source cache, no manifest. -/
def newManager : ManagerState :=
  { files := [], cache := fun _ => none, manifestFile := none, engine := newEngine }

/-- Modelled from the spec: step (iii) of RegisterParser, the invalidation
of the Engine's compiled cache for this protocolID (spec 4.2), is missing
from the source files — the manager present (unnamed/part_008) pairs with
the historical cache-less engine, and the manager wired to the caching
engine is absent.  Everything else mirrors part_008 RegisterParser:
writeErr is the outcome of the disk write of storage protocolID.go; on
failure the function returns the error before touching the in-memory
cache; on success the file and the source cache are updated. -/
def registerParser (writeErr : Option String) (protocolID code : String)
    (m : ManagerState) : ManagerState × Option String :=
  match writeErr with
  | some e => (m, some e)
  | none =>
    ({ m with
        files := assocSet m.files (protocolID ++ ".go") code
        cache := fun k => if k = protocolID then some code else m.cache k
        engine := clearCache protocolID m.engine }, none)

/-- ParserManager.GetParserCode: pure lookup in the source cache. -/
def getParserCode (protocolID : String) (m : ManagerState) : Option String :=
  m.cache protocolID

/-- Modelled from the spec: the use of the protocolID as the engine cache
key ("delegates to Engine with the cached source and the protocolID as
cache key", spec 4.2) is missing from the source files — the manager
present calls the historical cache-less engine, whose caching successor is
the engine actually present.  Everything else mirrors part_008 ParseData:
look up the cached source and delegate to the engine; the no-parser error
message is the one in the source. -/
def parseData (compile : String → Except String ParserFunc)
    (protocolID : String) (data : List Byte) (m : ManagerState) :
    Except String (Option RecMap) × ManagerState :=
  match m.cache protocolID with
  | none =>
    (.error ("no parser found for " ++ protocolID ++ ". Please trigger AI generation"), m)
  | some code =>
    let (r, e') := executeWithContext compile protocolID data code m.engine
    (r, { m with engine := e' })

/-- Encoding of the manifest: the JSON object with the single key bindings
holding the binding map, as json.MarshalIndent produces from the Manifest
struct. -/
def encodeManifest (bindings : List (String × String)) : Json :=
  .obj [("bindings", .obj (bindings.map (fun p => (p.1, .str p.2))))]

/-- Decoding of the bindings object: every field value must be a JSON
string, as json.Unmarshal requires for map string to string. -/
def jsonToStrMap : List (String × Json) → Option (List (String × String))
  | [] => some []
  | (k, .str v) :: rest => (jsonToStrMap rest).map (fun tl => (k, v) :: tl)
  | _ => none

/-- Decoding of the manifest file: the root object must hold the bindings
key with an object of string values. -/
def decodeManifest : Json → Option (List (String × String))
  | .obj [("bindings", .obj fields)] => jsonToStrMap fields
  | _ => none

/-- ParserManager.SaveManifest: marshal the bindings and write
manifest.json (a successful write; its error is dropped by the one caller
in the discovery pipeline). -/
def saveManifest (bindings : List (String × String)) (m : ManagerState) :
    ManagerState :=
  { m with manifestFile := some (encodeManifest bindings) }

/-- ParserManager.LoadManifest: a missing file yields the empty map;
otherwise unmarshal and return the bindings. -/
def loadManifest (m : ManagerState) : Except String (List (String × String)) :=
  match m.manifestFile with
  | none => .ok []
  | some j =>
    match decodeManifest j with
    | some b => .ok b
    | none => .error "failed to unmarshal manifest"

/-- Key order of the canonical representation of a Go map as an association
list: keys strictly ascending in byte order. -/
def charListLt : List Char → List Char → Bool
  | [], [] => false
  | [], _ :: _ => true
  | _ :: _, [] => false
  | a :: as, b :: bs =>
    Nat.blt a.toNat b.toNat || (a.toNat == b.toNat && charListLt as bs)

/-- String order used for the canonical map representation. -/
def strLt (a b : String) : Bool := charListLt a.toList b.toList

/-- A valid binding-map representation: keys strictly ascending (the
canonical association-list form of a Go map, matching the sorted key order
MarshalIndent renders). -/
def keysStrictSorted : List (String × String) → Bool
  | [] => true
  | [_] => true
  | (k₁, _) :: (k₂, v₂) :: rest =>
    strLt k₁ k₂ && keysStrictSorted ((k₂, v₂) :: rest)

/-! ## Sanitization of oracle output (discovery.go sanitizeAiCode) -/

/-- The expected package declaration, as a character list. -/
def pdChars : List Char := "package dynamic".toList

/-- The closing-brace character, written by code point. -/
def braceChar : Char := Char.ofNat 125

/-- Whether the pattern occurs as a contiguous sublist (strings.Contains /
strings.Index not equal to -1). -/
def containsSeq (pat : List Char) : List Char → Bool
  | [] => pat.isEmpty
  | c :: rest => pat.isPrefixOf (c :: rest) || containsSeq pat rest

/-- Drop everything before the first occurrence of the pattern
(input[strings.Index(input, pat):]); callers guard on containsSeq. -/
def dropToFirst (pat : List Char) : List Char → List Char
  | [] => []
  | c :: rest => if pat.isPrefixOf (c :: rest) then c :: rest else dropToFirst pat rest

/-- Strip a literal pattern from the front, returning the remainder. -/
def stripLit : List Char → List Char → Option (List Char)
  | [], l => some l
  | _ :: _, [] => none
  | p :: ps, c :: cs => if c = p then stripLit ps cs else none

/-- The regex class of identifier characters A-Za-z0-9_ . -/
def isIdentChar (c : Char) : Bool := c.isAlpha || c.isDigit || c = '_'

/-- Greedy run of identifier characters and the remainder. -/
def takeIdent : List Char → List Char × List Char
  | [] => ([], [])
  | c :: cs =>
    if isIdentChar c then
      let (i, r) := takeIdent cs
      (c :: i, r)
    else ([], c :: cs)

/-- The literal head of the function-name regex. -/
def funcSpaceChars : List Char := "func ".toList

/-- The replacement text of the function-name rewrite. -/
def funcParseChars : List Char := "func Parse(".toList

/-- One attempted match of the regex func azAZ09_ plus an opening
parenthesis at the current position: the literal, a nonempty identifier
run, then the parenthesis; returns the remainder after the match.
Backtracking is not needed: the identifier class excludes the
parenthesis. -/
def matchFuncAt (l : List Char) : Option (List Char) :=
  match stripLit funcSpaceChars l with
  | none => none
  | some l₁ =>
    match takeIdent l₁ with
    | ([], _) => none
    | (_ :: _, l₂) =>
      match l₂ with
      | c :: rem => if c = '(' then some rem else none
      | [] => none

/-- The regex rewrite of step 2: replace every leftmost non-overlapping
match of func azAZ09_ plus parenthesis by the fixed replacement, as
regexp.ReplaceAllString does. -/
def replaceFuncCalls (l : List Char) : List Char :=
  match h : matchFuncAt l with
  | some rem => funcParseChars ++ replaceFuncCalls rem
  | none =>
    match l with
    | [] => []
    | c :: rest => c :: replaceFuncCalls rest
termination_by l.length
decreasing_by
  · have hslen : ∀ (p l' r : List Char), stripLit p l' = some r →
        r.length + p.length = l'.length := by
      intro p
      induction p with
      | nil =>
        intro l' r hsl
        simp [stripLit] at hsl
        simp [hsl]
      | cons p ps ih =>
        intro l' r hsl
        cases l' with
        | nil => simp [stripLit] at hsl
        | cons c cs =>
          simp only [stripLit] at hsl
          split at hsl
          · have := ih cs r hsl
            simp only [List.length_cons]
            omega
          · simp at hsl
    have htlen : ∀ l' : List Char,
        (takeIdent l').1.length + (takeIdent l').2.length = l'.length := by
      intro l'
      induction l' with
      | nil => simp [takeIdent]
      | cons c cs ih =>
        simp only [takeIdent]
        split
        · simp only [List.length_cons]
          omega
        · simp
    unfold matchFuncAt at h
    cases hs : stripLit funcSpaceChars l with
    | none => rw [hs] at h; simp at h
    | some l₁ =>
      rw [hs] at h
      simp only at h
      have hlen := hslen funcSpaceChars l l₁ hs
      have hlen₂ := htlen l₁
      cases hi : takeIdent l₁ with
      | mk ident l₂ =>
        rw [hi] at h hlen₂
        cases ident with
        | nil => simp at h
        | cons i is =>
          cases l₂ with
          | nil => simp at h
          | cons c cs =>
            simp only at h
            split at h
            · cases h
              simp [funcSpaceChars] at hlen
              simp only [List.length_cons] at hlen₂ ⊢
              omega
            · simp at h
  · simp

/-- Step 3 of the sanitizer, the part reached when a closing brace exists:
keep the input through its last closing brace (input[:lastBrace+1]). -/
def keepThroughLastBrace : List Char → List Char
  | [] => []
  | c :: rest =>
    if braceChar ∈ rest then c :: keepThroughLastBrace rest
    else if c = braceChar then [braceChar]
    else []

/-- Whitespace as trimmed by strings.TrimSpace: the Latin-1 range of
unicode.IsSpace (space, tab, newline, vertical tab, form feed, carriage
return, next line, no-break space).  Higher Unicode space classes do not
occur in the properties proved. -/
def isSpaceChar (c : Char) : Bool :=
  c = ' ' || c = '\t' || c = '\n' || c = Char.ofNat 11 || c = Char.ofNat 12 ||
  c = '\r' || c = Char.ofNat 133 || c = Char.ofNat 160

/-- strings.TrimSpace on a character list. -/
def trimSpaceChars (l : List Char) : List Char :=
  ((l.dropWhile isSpaceChar).reverse.dropWhile isSpaceChar).reverse

/-- Step 1 of sanitizeAiCode: discard everything before the first
occurrence of the package declaration (no change when absent, since
strings.Index returns -1). -/
def sanitizeStep1 (input : List Char) : List Char :=
  if containsSeq pdChars input then dropToFirst pdChars input else input

/-- Step 3 of sanitizeAiCode: keep the input only through its last closing
brace (no change when there is none). -/
def sanitizeStep3 (input : List Char) : List Char :=
  if braceChar ∈ input then keepThroughLastBrace input else input

/-- Step 4 of sanitizeAiCode: prepend the package declaration when it is
absent. -/
def sanitizeStep4 (input : List Char) : List Char :=
  if containsSeq pdChars input then input else pdChars ++ '\n' :: '\n' :: input

/-- discovery.go sanitizeAiCode, on character lists: (1) discard everything
before the first occurrence of the package declaration, (2) rewrite every
top-level function-name match to the fixed entry point, (3) keep only up to
the last closing brace, (4) prepend the package declaration when absent,
then trim surrounding whitespace. -/
def sanitizeAiCodeChars (input : List Char) : List Char :=
  trimSpaceChars (sanitizeStep4 (sanitizeStep3 (replaceFuncCalls (sanitizeStep1 input))))

/-- discovery.go sanitizeAiCode on strings. -/
def sanitizeAiCode (input : String) : String :=
  ⟨sanitizeAiCodeChars input.data⟩

/-! ## Signature extraction (discovery.go requestAndRegister step 4) -/

/-- The literal head of the signature-comment regex. -/
def sigLitChars : List Char := "// Signature:".toList

/-- The regex whitespace class (RE2 backslash-s): tab, newline, form feed,
carriage return, space. -/
def isRegexSpace (c : Char) : Bool :=
  c = '\t' || c = '\n' || c = Char.ofNat 12 || c = '\r' || c = ' '

/-- The regex class 0-9A-Fa-f. -/
def isHexDigitChar (c : Char) : Bool :=
  c.isDigit || ('A' ≤ c && c ≤ 'F') || ('a' ≤ c && c ≤ 'f')

/-- One attempted match of the signature-comment regex at the current
position: the literal, greedy whitespace, then a nonempty greedy run of hex
digits (the capture group). -/
def matchSigAt (l : List Char) : Option (List Char) :=
  match stripLit sigLitChars l with
  | none => none
  | some l₁ =>
    let digits := (l₁.dropWhile isRegexSpace).takeWhile isHexDigitChar
    if digits.isEmpty then none else some digits

/-- FindStringSubmatch for the signature-comment regex: the capture of the
leftmost match, if any. -/
def findSigHex : List Char → Option (List Char)
  | [] => none
  | c :: rest =>
    match matchSigAt (c :: rest) with
    | some d => some d
    | none => findSigHex rest

/-- Steps 4 of requestAndRegister: extract the declared signature from the
generated code — leftmost regex capture, zero-padded to even length, hex
decoded. -/
def extractSignatureBytes (generatedCode : String) : Option (List Byte) :=
  (findSigHex generatedCode.data).map fun d =>
    hexPairsToBytes (if d.length % 2 ≠ 0 then '0' :: d else d)

/-- The authoritative signature of requestAndRegister: the declared
signature when present and nonempty, else the caller-supplied one. -/
def finalSignature (generatedCode : String) (signature : List Byte) : List Byte :=
  match extractSignatureBytes generatedCode with
  | some sigBytes => if sigBytes.isEmpty then signature else sigBytes
  | none => signature

/-! ## The discovery pipeline (discovery.go) -/

/-- The combined state the discovery pipeline updates. -/
structure GatewayState where
  dispatcher : DispState
  manager : ManagerState

/-- A gateway with nothing bound or registered. -/
def initGateway : GatewayState :=
  { dispatcher := newDispatcher, manager := newManager }

/-- discovery.go requestAndRegister, from the point where the oracle text
is in hand (generatedCode stands for the retry loop's successful reply;
writeErr is the outcome of the disk write inside RegisterParser): extract
the authoritative signature, fail when empty, derive the protocol id,
register the sanitized code, bind, and persist the manifest (whose write
error the source drops). -/
def requestAndRegister (generatedCode : String) (signature : List Byte)
    (writeErr : Option String) (st : GatewayState) :
    Except String (String × GatewayState) :=
  let finalSig := finalSignature generatedCode signature
  if finalSig.isEmpty then
    .error "no signature found in AI response and none provided"
  else
    let protocolID := "auto_proto_0x" ++ hexUpper finalSig
    let cleanCode := sanitizeAiCode generatedCode
    match registerParser writeErr protocolID cleanCode st.manager with
    | (_, some e) => .error e
    | (m', none) =>
      let d' := dispatcherBind st.dispatcher finalSig protocolID
      let m'' := saveManifest d'.routes m'
      .ok (protocolID, { dispatcher := d', manager := m'' })

/-- The signature substitution both DiscoverNewProtocol and RepairParser
perform: an empty caller-supplied signature is replaced by the frame's
first byte; none models the index-out-of-range panic of rawSample[0] on an
empty frame. -/
def effectiveSignature (rawSample signature : List Byte) : Option (List Byte) :=
  if signature.isEmpty then
    match rawSample with
    | [] => none
    | b :: _ => some [b]
  else some signature

/-- discovery.go DiscoverNewProtocol: substitute the signature when empty
(panicking on an empty frame), then run the shared pipeline.  The system
prompt text only feeds the oracle and is not modelled. -/
def discoverNewProtocol (generatedCode : String) (rawSample signature : List Byte)
    (writeErr : Option String) (st : GatewayState) :
    Option (Except String (String × GatewayState)) :=
  match effectiveSignature rawSample signature with
  | none => none
  | some sig => some (requestAndRegister generatedCode sig writeErr st)

/-- discovery.go RepairParser: same substitution and shared pipeline; the
protocolID argument feeds only the log line and the prompt. -/
def repairParser (generatedCode : String) (_protocolID : String)
    (rawSample signature : List Byte) (writeErr : Option String)
    (st : GatewayState) : Option (Except String (String × GatewayState)) :=
  match effectiveSignature rawSample signature with
  | none => none
  | some sig => some (requestAndRegister generatedCode sig writeErr st)

/-! ## Dispatcher.Ingest (dispatcher.go) -/

/-- Dispatcher.Ingest: empty-frame error, trie walk, unknown-signature
error, else delegate to ParseData and return its result together with the
matched protocol id. -/
def ingest (compile : String → Except String ParserFunc) (d : DispState)
    (m : ManagerState) (data : List Byte) :
    (Option RecMap × String × Option String) × ManagerState :=
  if data.isEmpty then ((none, "", some "empty payload"), m)
  else if trieWalk d.root data "" = "" then
    ((none, "", some ("unknown protocol signature: 0x" ++ hexUpper (data.take 4))), m)
  else
    match parseData compile (trieWalk d.root data "") data m with
    | (.ok r, m') => ((r, trieWalk d.root data "", none), m')
    | (.error e, m') => ((none, trieWalk d.root data "", some e), m')

/-- The seed parser seeds/OBDII_RPM.go: a nil map below four bytes,
otherwise the engine RPM decoded from bytes 2 and 3. -/
def obdiiRpmParse : ParserFunc
  | _ :: _ :: a :: b :: _ => .ret (some [("rpm", .i (((a * 256 + b) / 4 : Nat) : Int))])
  | _ => .ret none

/-! ## Single-flight discovery coordination

Modelled from the spec: the StartDiscovery and FinishDiscovery operations
of the DiscoveryService are invoked by server.go handleConnection but
their definitions are not among the source files; spec sections 3
(DiscoveryTicket) and 5 (single-flight discovery) describe them as an
in-flight set keyed by signature: StartDiscovery grants a ticket exactly
when none is active for the signature, the granted thread issues the
oracle request and FinishDiscovery releases the ticket. -/

/-- Modelled from the spec: the coordinator state behind StartDiscovery
and FinishDiscovery, which server.go calls but whose definitions are
missing from the source files — the active discovery tickets, as pairs of
the holding thread and the signature key (spec 3, DiscoveryTicket). -/
structure CoordState where
  holders : List (Nat × String)

/-- The coordinator before any discovery. -/
def initCoord : CoordState := { holders := [] }

/-- Whether a signature is in the in-flight set. -/
def inFlight (st : CoordState) (sig : String) : Bool :=
  st.holders.any fun h => h.2 == sig

/-- The active tickets for one signature. -/
def holdersFor (sig : String) (hs : List (Nat × String)) : List (Nat × String) :=
  hs.filter fun h => h.2 == sig

/-- Observable events of the coordination: a StartDiscovery call with its
result, an oracle request, a FinishDiscovery call. -/
inductive DiscEvent where
  | start (tid : Nat) (sig : String) (granted : Bool)
  | oracle (tid : Nat) (sig : String)
  | finish (tid : Nat) (sig : String)
  deriving DecidableEq

/-- Modelled from the spec: one atomic step of the single-flight
coordination (spec 5), whose StartDiscovery and FinishDiscovery
definitions are missing from the source files.  StartDiscovery returns
true and inserts the ticket exactly when the signature is not in flight;
the oracle request happens only while its thread holds the ticket;
FinishDiscovery removes the caller's ticket. -/
inductive CoordStep : CoordState → DiscEvent → CoordState → Prop where
  | startGranted (tid : Nat) (sig : String) (st : CoordState) :
      inFlight st sig = false →
      CoordStep st (.start tid sig true) { holders := (tid, sig) :: st.holders }
  | startDenied (tid : Nat) (sig : String) (st : CoordState) :
      inFlight st sig = true →
      CoordStep st (.start tid sig false) st
  | oracleCall (tid : Nat) (sig : String) (st : CoordState) :
      (tid, sig) ∈ st.holders →
      CoordStep st (.oracle tid sig) st
  | finishTicket (tid : Nat) (sig : String) (st : CoordState) :
      (tid, sig) ∈ st.holders →
      CoordStep st (.finish tid sig) { holders := st.holders.erase (tid, sig) }

/-- An interleaved run of the coordinator. -/
inductive CoordTrace : CoordState → List DiscEvent → CoordState → Prop where
  | nil (st : CoordState) : CoordTrace st [] st
  | cons {st st' st'' : CoordState} {e : DiscEvent} {es : List DiscEvent} :
      CoordStep st e st' → CoordTrace st' es st'' → CoordTrace st (e :: es) st''

/-- Start events for a signature. -/
def isStartFor (sig : String) : DiscEvent → Bool
  | .start _ s _ => s == sig
  | _ => false

/-- Granted start events for a signature. -/
def isGrantedStartFor (sig : String) : DiscEvent → Bool
  | .start _ s g => s == sig && g
  | _ => false

/-- Finish events for a signature. -/
def isFinishFor (sig : String) : DiscEvent → Bool
  | .finish _ s => s == sig
  | _ => false

/-- Oracle requests for a signature. -/
def isOracleFor (sig : String) : DiscEvent → Bool
  | .oracle _ s => s == sig
  | _ => false

/-- The thread an event belongs to. -/
def eventTid : DiscEvent → Nat
  | .start t _ _ => t
  | .oracle t _ => t
  | .finish t _ => t

/-! ## Trie lemmas -/

@[simp] theorem TrieNode.children_mk (ch : Byte → Option TrieNode) (p : String) :
    (TrieNode.mk ch p).children = ch := rfl

@[simp] theorem TrieNode.protocolID_mk (ch : Byte → Option TrieNode) (p : String) :
    (TrieNode.mk ch p).protocolID = p := rfl

@[simp] theorem nodeAt_nil (t : TrieNode) : nodeAt t [] = some t := rfl

theorem nodeAt_cons (t : TrieNode) (b : Byte) (rest : List Byte) :
    nodeAt t (b :: rest) =
      match t.children b with
      | some c => nodeAt c rest
      | none => none := by
  cases t; rfl

theorem pidAt_emptyNode (q : List Byte) : pidAt emptyNode q = "" := by
  cases q with
  | nil => rfl
  | cons b rest => rfl

theorem pidAt_trieInsert (s : List Byte) :
    ∀ (t : TrieNode) (q : List Byte) (p : String),
      pidAt (trieInsert t s p) q = if q = s then p else pidAt t q := by
  induction s with
  | nil =>
    intro t q p
    cases t with
    | mk ch pid =>
      cases q with
      | nil => simp [trieInsert, pidAt]
      | cons b rest => simp [trieInsert, pidAt, nodeAt]
  | cons b s' ih =>
    intro t q p
    cases t with
    | mk ch pid =>
      cases q with
      | nil => simp [trieInsert, pidAt]
      | cons b' q' =>
        by_cases hb : b' = b
        · subst hb
          have hstep :
              pidAt (trieInsert (TrieNode.mk ch pid) (b' :: s') p) (b' :: q') =
                pidAt (trieInsert ((ch b').getD emptyNode) s' p) q' := by
            simp [trieInsert, pidAt, nodeAt]
          rw [hstep, ih]
          by_cases hq : q' = s'
          · simp [hq]
          · have hne : (b' :: q') ≠ (b' :: s') := by simp [hq]
            rw [if_neg hq, if_neg hne]
            cases hc : ch b' with
            | none =>
              have h2 : pidAt (TrieNode.mk ch pid) (b' :: q') = "" := by
                unfold pidAt
                rw [nodeAt_cons]
                simp [hc]
              rw [h2]
              exact pidAt_emptyNode q'
            | some c =>
              have h2 : pidAt (TrieNode.mk ch pid) (b' :: q') = pidAt c q' := by
                unfold pidAt
                rw [nodeAt_cons]
                simp [hc]
              rw [h2]
              rfl
        · have hne : (b' :: q') ≠ (b :: s') := by
            intro hcontra
            exact hb (by injection hcontra)
          rw [if_neg hne]
          simp [trieInsert, pidAt, nodeAt, hb]

theorem pidAt_foldl_trieInsert (bs : List (List Byte × String)) :
    ∀ (t₀ : TrieNode) (q : List Byte),
      pidAt (bs.foldl (fun t p => trieInsert t p.1 p.2) t₀) q =
        (boundTo bs q).getD (pidAt t₀ q) := by
  induction bs with
  | nil => intro t₀ q; simp [boundTo]
  | cons hd rest ih =>
    intro t₀ q
    cases hd with
    | mk s p =>
      simp only [List.foldl_cons]
      rw [ih]
      rw [pidAt_trieInsert]
      simp only [boundTo]
      cases hr : boundTo rest q with
      | some r => simp
      | none =>
        simp only [Option.getD]
        by_cases hq : q = s
        · simp [hq]
        · have : s ≠ q := fun h => hq h.symm
          simp [hq, this]

theorem buildDispatcher_root (bs : List (List Byte × String)) :
    (buildDispatcher bs).root =
      bs.foldl (fun t p => trieInsert t p.1 p.2) emptyNode := by
  have haux : ∀ (l : List (List Byte × String)) (d : DispState),
      (l.foldl (fun d p => dispatcherBind d p.1 p.2) d).root =
        l.foldl (fun t p => trieInsert t p.1 p.2) d.root := by
    intro l
    induction l with
    | nil => intro d; rfl
    | cons hd rest ih => intro d; simp only [List.foldl_cons]; rw [ih]; rfl
  exact haux bs newDispatcher

theorem pidAt_buildDispatcher (bs : List (List Byte × String)) (q : List Byte) :
    pidAt (buildDispatcher bs).root q = (boundTo bs q).getD "" := by
  rw [buildDispatcher_root, pidAt_foldl_trieInsert, pidAt_emptyNode]

theorem boundTo_mem {bs : List (List Byte × String)} {q : List Byte} {r : String}
    (h : boundTo bs q = some r) : (q, r) ∈ bs := by
  induction bs with
  | nil => simp [boundTo] at h
  | cons hd rest ih =>
    cases hd with
    | mk s p =>
      simp only [boundTo] at h
      cases hr : boundTo rest q with
      | some r' =>
        rw [hr] at h
        simp only at h
        injection h with h'
        subst h'
        exact List.mem_cons_of_mem _ (ih hr)
      | none =>
        rw [hr] at h
        simp only at h
        by_cases hq : s = q
        · rw [if_pos hq] at h
          injection h with h'
          subst hq
          subst h'
          exact List.mem_cons_self _ _
        · rw [if_neg hq] at h
          simp at h

theorem pidAt_nodeAt {t : TrieNode} {s : List Byte} (h : pidAt t s ≠ "") :
    ∃ n, nodeAt t s = some n ∧ n.protocolID = pidAt t s := by
  cases hn : nodeAt t s with
  | none =>
    exfalso
    apply h
    unfold pidAt
    rw [hn]
  | some n =>
    refine ⟨n, rfl, ?_⟩
    unfold pidAt
    rw [hn]

theorem nodeAt_append (s : List Byte) :
    ∀ (t : TrieNode) (q : List Byte),
      nodeAt t (s ++ q) = (nodeAt t s).bind (fun n => nodeAt n q) := by
  induction s with
  | nil => intro t q; simp
  | cons b s' ih =>
    intro t q
    cases t with
    | mk ch pid =>
      cases hc : ch b with
      | none => simp [nodeAt, hc]
      | some c => simp [nodeAt, hc, ih]

theorem trieWalk_ne_empty (f : List Byte) :
    ∀ (t : TrieNode) (acc : String), acc ≠ "" → trieWalk t f acc ≠ "" := by
  induction f with
  | nil => intro t acc h; exact h
  | cons b rest ih =>
    intro t acc h
    cases t with
    | mk ch pid =>
      cases hc : ch b with
      | none =>
        have hw : trieWalk (TrieNode.mk ch pid) (b :: rest) acc = acc := by
          simp [trieWalk, hc]
        rw [hw]
        exact h
      | some next =>
        have hw : trieWalk (TrieNode.mk ch pid) (b :: rest) acc =
            trieWalk next rest (if next.protocolID ≠ "" then next.protocolID else acc) := by
          simp [trieWalk, hc]
        rw [hw]
        apply ih
        by_cases hp : next.protocolID = ""
        · simpa [hp] using h
        · simp [hp]

theorem trieWalk_through (s : List Byte) :
    ∀ (t n : TrieNode) (tail : List Byte) (acc : String), s ≠ [] →
      nodeAt t s = some n → n.protocolID ≠ "" →
      trieWalk t (s ++ tail) acc = trieWalk n tail n.protocolID := by
  induction s with
  | nil => intro t n tail acc hne; exact absurd rfl hne
  | cons b s' ih =>
    intro t n tail acc _ hnode hpid
    cases t with
    | mk ch pid =>
      rw [nodeAt_cons] at hnode
      simp only [TrieNode.children_mk] at hnode
      cases hc : ch b with
      | none => rw [hc] at hnode; simp at hnode
      | some c =>
        rw [hc] at hnode
        simp only at hnode
        cases s' with
        | nil =>
          simp only [nodeAt_nil, Option.some.injEq] at hnode
          subst hnode
          simp [trieWalk, hc, hpid]
        | cons b' s'' =>
          have : trieWalk (TrieNode.mk ch pid) ((b :: b' :: s'') ++ tail) acc =
              trieWalk c ((b' :: s'') ++ tail)
                (if c.protocolID ≠ "" then c.protocolID else acc) := by
            simp [trieWalk, hc]
          rw [this]
          exact ih c n tail _ (by simp) hnode hpid

theorem trieWalk_acc (f : List Byte) :
    ∀ (t : TrieNode) (acc : String),
      trieWalk t f acc = acc ∨
      ∃ p, p ≠ [] ∧ p <+: f ∧ pidAt t p = trieWalk t f acc ∧ pidAt t p ≠ "" := by
  induction f with
  | nil => intro t acc; left; rfl
  | cons b rest ih =>
    intro t acc
    cases t with
    | mk ch pid =>
      cases hc : ch b with
      | none =>
        left
        simp [trieWalk, hc]
      | some next =>
        have hw : trieWalk (TrieNode.mk ch pid) (b :: rest) acc =
            trieWalk next rest (if next.protocolID ≠ "" then next.protocolID else acc) := by
          simp [trieWalk, hc]
        rcases ih next (if next.protocolID ≠ "" then next.protocolID else acc) with h | ⟨p, hp1, hp2, hp3, hp4⟩
        · by_cases hpe : next.protocolID = ""
          · left
            rw [hw, h, if_neg (by simp [hpe])]
          · right
            refine ⟨[b], by simp, ⟨rest, rfl⟩, ?_, ?_⟩
            · rw [hw, h, if_pos (by simp [hpe])]
              simp [pidAt, nodeAt, hc]
            · simp [pidAt, nodeAt, hc, hpe]
        · right
          refine ⟨b :: p, by simp, ?_, ?_, ?_⟩
          · rcases hp2 with ⟨r, hr⟩
            exact ⟨r, by rw [List.cons_append, hr]⟩
          · rw [hw, ← hp3]
            simp [pidAt, nodeAt, hc]
          · simpa [pidAt, nodeAt, hc] using hp4

/-! ## Small shared lemmas -/

theorem assocLookup_assocSet_self (l : List (String × String)) (k v : String) :
    assocLookup (assocSet l k v) k = some v := by
  induction l with
  | nil => simp [assocSet, assocLookup]
  | cons hd rest ih =>
    cases hd with
    | mk k' v' =>
      by_cases hk : k' = k
      · simp [assocSet, assocLookup, hk]
      · simp [assocSet, assocLookup, hk, ih]

theorem jsonToStrMap_map (b : List (String × String)) :
    jsonToStrMap (b.map fun p => (p.1, Json.str p.2)) = some b := by
  induction b with
  | nil => rfl
  | cons hd rest ih =>
    cases hd with
    | mk k v => simp [jsonToStrMap, ih]

theorem finalSignature_ne_empty (generatedCode : String) {signature : List Byte}
    (h : signature ≠ []) : finalSignature generatedCode signature ≠ [] := by
  unfold finalSignature
  cases extractSignatureBytes generatedCode with
  | none => exact h
  | some sigBytes =>
    by_cases hb : sigBytes.isEmpty
    · simpa [hb] using h
    · simpa [hb] using fun hc => hb (by simp [hc])

/-! ## Claim theorems -/

/-- Claim C8: if RegisterParser fails with a persistence error (the disk
write fails), the in-memory state is rolled back: the whole manager state,
in particular the source cache, is unchanged, so GetParserCode returns what
it returned before the call, and the error is reported. -/
theorem registerParser_rollback_on_write_error (e protocolID code : String)
    (m : ManagerState) :
    (registerParser (some e) protocolID code m).1 = m ∧
    (registerParser (some e) protocolID code m).2 = some e ∧
    getParserCode protocolID (registerParser (some e) protocolID code m).1 =
      getParserCode protocolID m :=
  ⟨rfl, rfl, rfl⟩

/-- Claim C3: after RegisterParser(id, src) returns success, GetParserCode
id returns exactly src, the engine's compiled-cache entry for id is gone,
and the next execution for cache key id compiles and runs the new source
rather than any previously compiled parser. -/
theorem registerParser_invalidates_engine_cache
    (compile : String → Except String ParserFunc) (id src : String)
    (raw : List Byte) (m : ManagerState) :
    getParserCode id (registerParser none id src m).1 = some src ∧
    (registerParser none id src m).1.engine.cache id = none ∧
    (parseData compile id raw (registerParser none id src m).1).1 =
      (match compile src with
       | .ok fn => runParserFn fn raw
       | .error err => .error err) := by
  refine ⟨by simp [registerParser, getParserCode], by simp [registerParser, clearCache], ?_⟩
  simp only [registerParser, parseData, executeWithContext, clearCache, if_pos]
  cases compile src with
  | ok fn => simp
  | error err => simp

/-- Claim C6: LoadManifest after SaveManifest returns exactly the saved
binding map, for every valid binding map (canonical key-sorted
association-list representation of the Go map). -/
theorem manifest_roundtrip (b : List (String × String)) (m : ManagerState)
    (hvalid : keysStrictSorted b = true) :
    loadManifest (saveManifest b m) = .ok b := by
  have hdec : decodeManifest (encodeManifest b) = some b := by
    unfold encodeManifest decodeManifest
    exact jsonToStrMap_map b
  simp [loadManifest, saveManifest, hdec]

/-- Witness for C6 at a concrete two-entry binding map. -/
theorem manifest_roundtrip_witness :
    keysStrictSorted [("01", "Proto1"), ("02", "Proto2")] = true ∧
    loadManifest (saveManifest [("01", "Proto1"), ("02", "Proto2")] newManager) =
      .ok [("01", "Proto1"), ("02", "Proto2")] :=
  ⟨by decide, manifest_roundtrip _ newManager (by decide)⟩

/-- Claim C9: for every frame and every parser that the engine resolves for
the cache key and whose Parse returns null on that frame, Execute surfaces
an empty result (a nil mapping) with no error. -/
theorem execute_null_is_empty_no_error
    (compile : String → Except String ParserFunc) (id code : String)
    (raw : List Byte) (e : EngineState) (fn : ParserFunc)
    (hres : resolvedParser compile id code e = some fn)
    (hnull : fn raw = .ret none) :
    (executeWithContext compile id raw code e).1 = .ok none := by
  unfold resolvedParser at hres
  unfold executeWithContext
  cases hc : e.cache id with
  | some g =>
    rw [hc] at hres
    simp only at hres
    injection hres with hres
    subst hres
    simp [runParserFn, hnull]
  | none =>
    rw [hc] at hres
    simp only at hres
    cases hcompile : compile code with
    | error err => rw [hcompile] at hres; simp at hres
    | ok g =>
      rw [hcompile] at hres
      simp only at hres
      injection hres with hres
      subst hres
      simp [runParserFn, hnull]

/-- Witness for C9: the seed RPM parser returns null on a one-byte frame
and the engine surfaces an empty result with no error. -/
theorem execute_null_is_empty_no_error_witness :
    resolvedParser (fun _ => .error "E") "p" ""
        { cache := fun k => if k = "p" then some obdiiRpmParse else none } =
      some obdiiRpmParse ∧
    obdiiRpmParse [65] = .ret none ∧
    (executeWithContext (fun _ => .error "E") "p" [65] ""
        { cache := fun k => if k = "p" then some obdiiRpmParse else none }).1 =
      .ok none :=
  ⟨rfl, rfl, execute_null_is_empty_no_error _ "p" "" [65] _ obdiiRpmParse rfl rfl⟩

/-- Claim C10: with an empty caller-supplied signature the discovery
substitutes the frame's first byte; with both frame and signature empty the
first-byte access is out of bounds (the panic is modelled as none); and
under a non-empty frame the authoritative signature is never empty, so the
MissingSignature branch of the shared pipeline — taken exactly when
finalSignature is empty — is unreachable. -/
theorem discovery_signature_substitution :
    (∀ (b : Byte) (rest : List Byte), effectiveSignature (b :: rest) [] = some [b]) ∧
    effectiveSignature [] [] = none ∧
    (∀ (genCode : String) (raw sig : List Byte), raw ≠ [] →
      ∀ es, effectiveSignature raw sig = some es →
        (finalSignature genCode es).isEmpty = false) := by
  refine ⟨fun b rest => rfl, rfl, fun genCode raw sig hraw es hes => ?_⟩
  unfold effectiveSignature at hes
  by_cases hsig : sig.isEmpty
  · rw [if_pos hsig] at hes
    cases raw with
    | nil => exact absurd rfl hraw
    | cons b rest =>
      simp only at hes
      injection hes with hes
      subst hes
      simpa using finalSignature_ne_empty genCode (by simp)
  · rw [if_neg hsig] at hes
    injection hes with hes
    subst hes
    simpa using finalSignature_ne_empty genCode (by simpa using hsig)

/-- Witness for C10 at a concrete frame. -/
theorem discovery_signature_substitution_witness :
    (finalSignature "x" [7]).isEmpty = false :=
  discovery_signature_substitution.2.2 "x" [7, 9] [] (by decide) [7] rfl

/-- Claim C1 counterexample: RepairParser does not keep the original
protocol id.  Repairing "Engine_System" on frame 01 64 with signature 01
and an oracle reply without a signature comment registers, binds and
returns auto_proto_0x01, not the original id. -/
theorem repairParser_keeps_id_counterexample :
    ∃ st' : GatewayState,
      repairParser "package dynamic" "Engine_System" [1, 100] [1] none initGateway =
        some (.ok ("auto_proto_0x01", st')) ∧
      assocLookup st'.dispatcher.routes "01" = some "auto_proto_0x01" ∧
      "auto_proto_0x01" ≠ "Engine_System" :=
  ⟨_, rfl, rfl, by decide⟩

/-- Claim C1 amended: every successful RepairParser call registers, binds
and returns the identifier auto_proto_0x followed by the uppercase hex of
the authoritative signature — exactly as DiscoverNewProtocol does — and
keeps the original protocol id only when it already coincides with that
derived identifier. -/
theorem repairParser_derives_id_from_signature
    (genCode pid : String) (raw sig : List Byte) (writeErr : Option String)
    (st : GatewayState) (res : String) (st' : GatewayState)
    (h : repairParser genCode pid raw sig writeErr st = some (.ok (res, st'))) :
    ∃ es, effectiveSignature raw sig = some es ∧
      res = "auto_proto_0x" ++ hexUpper (finalSignature genCode es) ∧
      assocLookup st'.dispatcher.routes (hexUpper (finalSignature genCode es)) =
        some res := by
  unfold repairParser at h
  cases he : effectiveSignature raw sig with
  | none => rw [he] at h; simp at h
  | some es =>
    rw [he] at h
    simp only [Option.some.injEq] at h
    refine ⟨es, rfl, ?_⟩
    unfold requestAndRegister at h
    by_cases hfs : (finalSignature genCode es).isEmpty
    · rw [if_pos hfs] at h
      simp at h
    · rw [if_neg hfs] at h
      simp only [] at h
      cases hr : registerParser writeErr ("auto_proto_0x" ++ hexUpper (finalSignature genCode es))
          (sanitizeAiCode genCode) st.manager with
      | mk m' werr =>
        rw [hr] at h
        cases werr with
        | some e => simp at h
        | none =>
          simp only [Except.ok.injEq, Prod.mk.injEq] at h
          obtain ⟨hres, hst⟩ := h
          subst hres
          subst hst
          exact ⟨rfl, by
            simp only [dispatcherBind]
            exact assocLookup_assocSet_self _ _ _⟩

/-- Witness for the amended C1 at the concrete repair call of the
counterexample. -/
theorem repairParser_derives_id_from_signature_witness :
    ∃ st' : GatewayState, ∃ es,
      effectiveSignature [1, 100] [1] = some es ∧
      "auto_proto_0x01" = "auto_proto_0x" ++ hexUpper (finalSignature "package dynamic" es) ∧
      assocLookup st'.dispatcher.routes (hexUpper (finalSignature "package dynamic" es)) =
        some "auto_proto_0x01" :=
  ⟨_, repairParser_derives_id_from_signature "package dynamic" "Engine_System"
    [1, 100] [1] none initGateway "auto_proto_0x01" _ rfl⟩

/-! ## Ingest helper lemmas -/

theorem ingest_protocolID (compile : String → Except String ParserFunc)
    (d : DispState) (mgr : ManagerState) (data : List Byte)
    (hne : data ≠ []) (hm : trieWalk d.root data "" ≠ "") :
    (ingest compile d mgr data).1.2.1 = trieWalk d.root data "" := by
  unfold ingest
  rw [if_neg (by simpa using hne), if_neg hm]
  cases hp : parseData compile (trieWalk d.root data "") data mgr with
  | mk r m' =>
    cases r with
    | ok v => simp
    | error e => simp

theorem trieWalk_build_ne_iff (bs : List (List Byte × String)) (data : List Byte)
    (hall : ∀ q ∈ bs, q.1 ≠ [] ∧ q.2 ≠ "") :
    trieWalk (buildDispatcher bs).root data "" ≠ "" ↔
      ∃ s₂ q, s₂ <+: data ∧ boundTo bs s₂ = some q := by
  constructor
  · intro hm
    rcases trieWalk_acc data (buildDispatcher bs).root "" with hc | ⟨p, _, hp2, _, hp4⟩
    · exact absurd hc hm
    · refine ⟨p, pidAt (buildDispatcher bs).root p, hp2, ?_⟩
      have hpb := pidAt_buildDispatcher bs p
      cases hbt : boundTo bs p with
      | none => rw [hbt] at hpb; simp at hpb; exact absurd hpb hp4
      | some r => rw [hbt] at hpb; simp at hpb; rw [hpb]
  · rintro ⟨s₂, q, hpre, hb⟩
    have hmem := boundTo_mem hb
    have hs2 : s₂ ≠ [] := (hall _ hmem).1
    have hq : q ≠ "" := (hall _ hmem).2
    have hpidAt : pidAt (buildDispatcher bs).root s₂ = q := by
      rw [pidAt_buildDispatcher, hb]; rfl
    obtain ⟨n, hn, hnp⟩ := pidAt_nodeAt (hpidAt ▸ hq)
    rcases hpre with ⟨r, hr⟩
    subst hr
    rw [trieWalk_through s₂ _ n r "" hs2 hn (by rw [hnp, hpidAt]; exact hq)]
    exact trieWalk_ne_empty r n n.protocolID (by rw [hnp, hpidAt]; exact hq)

theorem trieWalk_build_bound (bs : List (List Byte × String)) (data : List Byte)
    (hm : trieWalk (buildDispatcher bs).root data "" ≠ "") :
    ∃ s₂, s₂ <+: data ∧
      boundTo bs s₂ = some (trieWalk (buildDispatcher bs).root data "") := by
  rcases trieWalk_acc data (buildDispatcher bs).root "" with hc | ⟨p, _, hp2, hp3, hp4⟩
  · exact absurd hc hm
  · refine ⟨p, hp2, ?_⟩
    have hpb := pidAt_buildDispatcher bs p
    cases hbt : boundTo bs p with
    | none => rw [hbt] at hpb; simp at hpb; exact absurd hpb hp4
    | some r => rw [hbt] at hpb; simp at hpb; rw [← hp3, hpb]

/-- Claim C2: for every bound signature s and byte suffix t, Ingest on
s ++ t selects the protocol id of s or of a strictly longer bound prefix of
s ++ t, never a shorter bound prefix: the returned protocol id is the
binding of a bound prefix of length at least that of s. -/
theorem ingest_longest_bound_match (compile : String → Except String ParserFunc)
    (mgr : ManagerState) (bs : List (List Byte × String)) (s t : List Byte)
    (pid : String) (hall : ∀ q ∈ bs, q.1 ≠ [] ∧ q.2 ≠ "")
    (hbound : boundTo bs s = some pid) :
    ∃ s₂ pid₂, s₂ <+: (s ++ t) ∧ s.length ≤ s₂.length ∧
      boundTo bs s₂ = some pid₂ ∧
      (ingest compile (buildDispatcher bs) mgr (s ++ t)).1.2.1 = pid₂ := by
  have hmem := boundTo_mem hbound
  have hs : s ≠ [] := (hall _ hmem).1
  have hpid : pid ≠ "" := (hall _ hmem).2
  have hpidAt : pidAt (buildDispatcher bs).root s = pid := by
    rw [pidAt_buildDispatcher, hbound]; rfl
  obtain ⟨n, hn, hnp⟩ := pidAt_nodeAt (hpidAt ▸ hpid)
  have hnpid : n.protocolID = pid := by rw [hnp, hpidAt]
  have hthrough : trieWalk (buildDispatcher bs).root (s ++ t) "" = trieWalk n t pid := by
    rw [trieWalk_through s _ n t "" hs hn (by rw [hnpid]; exact hpid), hnpid]
  have hdata : (s ++ t) ≠ [] := fun hc => hs (List.append_eq_nil.mp hc).1
  have hmne : trieWalk (buildDispatcher bs).root (s ++ t) "" ≠ "" := by
    rw [hthrough]; exact trieWalk_ne_empty t n pid hpid
  have hproj := ingest_protocolID compile (buildDispatcher bs) mgr (s ++ t) hdata hmne
  rcases trieWalk_acc t n pid with hc | ⟨p, _, hp2, hp3, hp4⟩
  · exact ⟨s, pid, ⟨t, rfl⟩, le_refl _, hbound, by rw [hproj, hthrough, hc]⟩
  · have hpa : pidAt (buildDispatcher bs).root (s ++ p) = pidAt n p := by
      unfold pidAt
      rw [nodeAt_append, hn]
      rfl
    have hbp : boundTo bs (s ++ p) = some (pidAt n p) := by
      have hpb := pidAt_buildDispatcher bs (s ++ p)
      rw [hpa] at hpb
      cases hbt : boundTo bs (s ++ p) with
      | none => rw [hbt] at hpb; simp at hpb; exact absurd hpb hp4
      | some r => rw [hbt] at hpb; simp at hpb; rw [hpb]
    refine ⟨s ++ p, pidAt n p, ?_, by simp, hbp, ?_⟩
    · rcases hp2 with ⟨r, hr⟩
      exact ⟨r, by rw [List.append_assoc, hr]⟩
    · rw [hproj, hthrough, ← hp3]

/-- Witness for C2: with 41 bound to OBD and 41 05 bound to CoolantTemp,
ingesting 41 0D 4B selects a bound prefix no shorter than 41. -/
theorem ingest_longest_bound_match_witness :
    ∃ s₂ pid₂, s₂ <+: (([0x41] : List Byte) ++ [0x0D, 0x4B]) ∧
      ([0x41] : List Byte).length ≤ s₂.length ∧
      boundTo [([0x41], "OBD"), ([0x41, 0x05], "CoolantTemp")] s₂ = some pid₂ ∧
      (ingest (fun _ => .error "E")
        (buildDispatcher [([0x41], "OBD"), ([0x41, 0x05], "CoolantTemp")])
        newManager (([0x41] : List Byte) ++ [0x0D, 0x4B])).1.2.1 = pid₂ :=
  ingest_longest_bound_match (fun _ => .error "E") newManager
    [([0x41], "OBD"), ([0x41, 0x05], "CoolantTemp")] [0x41] [0x0D, 0x4B] "OBD"
    (by decide) (by decide)

theorem ingest_unknown_tuple (compile : String → Except String ParserFunc)
    (d : DispState) (mgr : ManagerState) (data : List Byte)
    (hne : data ≠ []) (hm : trieWalk d.root data "" = "") :
    (ingest compile d mgr data).1 =
      (none, "", some ("unknown protocol signature: 0x" ++ hexUpper (data.take 4))) := by
  unfold ingest
  rw [if_neg (by simpa using hne), if_pos hm]

theorem ingest_parsed_ok_tuple (compile : String → Except String ParserFunc)
    (d : DispState) (mgr m' : ManagerState) (data : List Byte) (v : Option RecMap)
    (hne : data ≠ []) (hm : trieWalk d.root data "" ≠ "")
    (hp : parseData compile (trieWalk d.root data "") data mgr = (.ok v, m')) :
    (ingest compile d mgr data).1 = (v, trieWalk d.root data "", none) := by
  unfold ingest
  rw [if_neg (by simpa using hne), if_neg hm, hp]

theorem ingest_parse_error_tuple (compile : String → Except String ParserFunc)
    (d : DispState) (mgr m' : ManagerState) (data : List Byte) (e : String)
    (hne : data ≠ []) (hm : trieWalk d.root data "" ≠ "")
    (hp : parseData compile (trieWalk d.root data "") data mgr = (.error e, m')) :
    (ingest compile d mgr data).1 = (none, trieWalk d.root data "", some e) := by
  unfold ingest
  rw [if_neg (by simpa using hne), if_neg hm, hp]

/-- Claim C5: the Ingest return tuple encodes discovery-versus-repair
routing.  An error with empty protocol id occurs exactly when the frame is
empty or no bound signature is a prefix of the frame; an error with a
nonempty protocol id occurs exactly when a bound prefix matched (the trie
selection) and ParseData with that protocol returned an error. -/
theorem ingest_error_tuple_routing (compile : String → Except String ParserFunc)
    (mgr : ManagerState) (bs : List (List Byte × String)) (data : List Byte)
    (hall : ∀ q ∈ bs, q.1 ≠ [] ∧ q.2 ≠ "") :
    (((ingest compile (buildDispatcher bs) mgr data).1.2.2 ≠ none ∧
      (ingest compile (buildDispatcher bs) mgr data).1.2.1 = "") ↔
      (data = [] ∨ ∀ s₂ q, boundTo bs s₂ = some q → ¬ s₂ <+: data)) ∧
    (((ingest compile (buildDispatcher bs) mgr data).1.2.2 ≠ none ∧
      (ingest compile (buildDispatcher bs) mgr data).1.2.1 ≠ "") ↔
      ((∃ s₂, s₂ <+: data ∧
          boundTo bs s₂ = some (trieWalk (buildDispatcher bs).root data "")) ∧
        ∃ e, (parseData compile (trieWalk (buildDispatcher bs).root data "") data mgr).1 =
          Except.error e)) := by
  by_cases hd : data = []
  · subst hd
    have e1 : (ingest compile (buildDispatcher bs) mgr []).1.2.1 = "" := rfl
    have e2 : (ingest compile (buildDispatcher bs) mgr []).1.2.2 = some "empty payload" := rfl
    constructor
    · constructor
      · intro _; exact Or.inl rfl
      · intro _; exact ⟨by rw [e2]; simp, e1⟩
    · constructor
      · rintro ⟨_, hne1⟩; exact absurd e1 hne1
      · rintro ⟨⟨s₂, hpre, hb⟩, _⟩
        have hs2 := (hall _ (boundTo_mem hb)).1
        rcases hpre with ⟨r, hr⟩
        exact absurd (List.append_eq_nil.mp hr).1 hs2
  · by_cases hm : trieWalk (buildDispatcher bs).root data "" = ""
    · have htuple := ingest_unknown_tuple compile (buildDispatcher bs) mgr data hd hm
      have hnob : ∀ s₂ q, boundTo bs s₂ = some q → ¬ s₂ <+: data := by
        intro s₂ q hb hpre
        exact ((trieWalk_build_ne_iff bs data hall).mpr ⟨s₂, q, hpre, hb⟩) hm
      constructor
      · constructor
        · intro _; exact Or.inr hnob
        · intro _
          constructor
          · rw [htuple]; simp
          · rw [htuple]
      · constructor
        · rintro ⟨_, hne1⟩
          rw [htuple] at hne1
          exact absurd rfl hne1
        · rintro ⟨⟨s₂, hpre, hb⟩, _⟩
          rw [hm] at hb
          exact absurd rfl ((hall _ (boundTo_mem hb)).2)
    · cases hp : parseData compile (trieWalk (buildDispatcher bs).root data "") data mgr with
      | mk r m' =>
        cases r with
        | ok v =>
          have htuple := ingest_parsed_ok_tuple compile (buildDispatcher bs) mgr m' data v hd hm hp
          constructor
          · constructor
            · rintro ⟨hne2, _⟩
              rw [htuple] at hne2
              exact absurd rfl hne2
            · rintro (hdd | hnob)
              · exact absurd hdd hd
              · obtain ⟨s₂, q, hpre, hb⟩ := (trieWalk_build_ne_iff bs data hall).mp hm
                exact absurd hpre (hnob s₂ q hb)
          · constructor
            · rintro ⟨hne2, _⟩
              rw [htuple] at hne2
              exact absurd rfl hne2
            · rintro ⟨_, e, hpe⟩
              simp at hpe
        | error e =>
          have htuple := ingest_parse_error_tuple compile (buildDispatcher bs) mgr m' data e hd hm hp
          constructor
          · constructor
            · rintro ⟨_, h1⟩
              rw [htuple] at h1
              exact absurd h1 hm
            · rintro (hdd | hnob)
              · exact absurd hdd hd
              · obtain ⟨s₂, q, hpre, hb⟩ := (trieWalk_build_ne_iff bs data hall).mp hm
                exact absurd hpre (hnob s₂ q hb)
          · constructor
            · intro _
              exact ⟨trieWalk_build_bound bs data hm, e, rfl⟩
            · intro _
              rw [htuple]
              exact ⟨by simp, hm⟩

/-- Witness for C5 at a concrete dispatcher with 01 bound to P, with a
manager holding no code, on the frame 01 02. -/
theorem ingest_error_tuple_routing_witness :
    (((ingest (fun _ => .error "E") (buildDispatcher [([1], "P")]) newManager [1, 2]).1.2.2 ≠ none ∧
      (ingest (fun _ => .error "E") (buildDispatcher [([1], "P")]) newManager [1, 2]).1.2.1 = "") ↔
      (([1, 2] : List Byte) = [] ∨
        ∀ s₂ q, boundTo [([1], "P")] s₂ = some q → ¬ s₂ <+: ([1, 2] : List Byte))) ∧
    (((ingest (fun _ => .error "E") (buildDispatcher [([1], "P")]) newManager [1, 2]).1.2.2 ≠ none ∧
      (ingest (fun _ => .error "E") (buildDispatcher [([1], "P")]) newManager [1, 2]).1.2.1 ≠ "") ↔
      ((∃ s₂, s₂ <+: ([1, 2] : List Byte) ∧
          boundTo [([1], "P")] s₂ =
            some (trieWalk (buildDispatcher [([1], "P")]).root [1, 2] "")) ∧
        ∃ e, (parseData (fun _ => .error "E")
            (trieWalk (buildDispatcher [([1], "P")]).root [1, 2] "") [1, 2] newManager).1 =
          Except.error e)) :=
  ingest_error_tuple_routing (fun _ => .error "E") newManager [([1], "P")] [1, 2] (by decide)

/-! ## Single-flight lemmas -/

theorem holdersFor_erase (sig : String) (a : Nat × String) (l : List (Nat × String))
    (ha : (a.2 == sig) = false) :
    holdersFor sig (l.erase a) = holdersFor sig l := by
  induction l with
  | nil => rfl
  | cons hd tl ih =>
    by_cases hhd : hd = a
    · subst hhd
      rw [List.erase_cons_head]
      unfold holdersFor
      rw [List.filter_cons]
      simp [ha]
    · rw [List.erase_cons_tail (by simpa using hhd)]
      unfold holdersFor at ih ⊢
      rw [List.filter_cons, List.filter_cons, ih]

theorem inFlight_false_iff (st : CoordState) (sig : String) :
    inFlight st sig = false ↔ holdersFor sig st.holders = [] := by
  unfold inFlight holdersFor
  constructor
  · intro h
    rw [List.filter_eq_nil_iff]
    intro a ha
    have := List.any_eq_false.mp h a ha
    simpa using this
  · intro h
    rw [List.any_eq_false]
    intro a ha
    have := List.filter_eq_nil_iff.mp h a ha
    simpa using this

theorem coordAfterGrant (sig : String) (t₀ : Nat) :
    ∀ {st : CoordState} {ops : List DiscEvent} {st' : CoordState},
      CoordTrace st ops st' →
      (ops.filter (isFinishFor sig)).length = 0 →
      holdersFor sig st.holders = [(t₀, sig)] →
      (ops.filter (isGrantedStartFor sig)) = [] ∧
      holdersFor sig st'.holders = [(t₀, sig)] ∧
      ∀ e ∈ ops, isOracleFor sig e = true → eventTid e = t₀ := by
  intro st ops st' htr
  induction htr with
  | nil => intro _ hh; exact ⟨rfl, hh, by simp⟩
  | @cons st st'' stf e es hstep htail ih =>
    intro hfin hh
    cases hstep with
    | startGranted tid s _ hflight =>
      by_cases hsg : s = sig
      · subst hsg
        rw [inFlight_false_iff] at hflight
        rw [hh] at hflight
        simp at hflight
      · have hh' : holdersFor sig ((tid, s) :: st.holders) = holdersFor sig st.holders := by
          unfold holdersFor
          rw [List.filter_cons]
          simp [hsg]
        have hfin' : (es.filter (isFinishFor sig)).length = 0 := by
          rw [List.filter_cons] at hfin
          simpa [isFinishFor] using hfin
        obtain ⟨h1, h2, h3⟩ := ih hfin' (hh'.trans hh)
        refine ⟨?_, h2, ?_⟩
        · rw [List.filter_cons]
          simp [isGrantedStartFor, hsg, h1]
        · intro ev hev hor
          rcases List.mem_cons.mp hev with rfl | hev'
          · simp [isOracleFor] at hor
          · exact h3 ev hev' hor
    | startDenied tid s _ hflight =>
      have hfin' : (es.filter (isFinishFor sig)).length = 0 := by
        rw [List.filter_cons] at hfin
        simpa [isFinishFor] using hfin
      obtain ⟨h1, h2, h3⟩ := ih hfin' hh
      refine ⟨?_, h2, ?_⟩
      · rw [List.filter_cons]
        simp [isGrantedStartFor, h1]
      · intro ev hev hor
        rcases List.mem_cons.mp hev with rfl | hev'
        · simp [isOracleFor] at hor
        · exact h3 ev hev' hor
    | oracleCall tid s _ hmem =>
      have hfin' : (es.filter (isFinishFor sig)).length = 0 := by
        rw [List.filter_cons] at hfin
        simpa [isFinishFor] using hfin
      obtain ⟨h1, h2, h3⟩ := ih hfin' hh
      refine ⟨?_, h2, ?_⟩
      · rw [List.filter_cons]
        simp [isGrantedStartFor, h1]
      · intro ev hev hor
        rcases List.mem_cons.mp hev with rfl | hev'
        · have hsg : s = sig := by simpa [isOracleFor] using hor
          subst hsg
          have hmem2 : (tid, s) ∈ holdersFor s st.holders :=
            List.mem_filter.mpr ⟨hmem, by simp⟩
          rw [hh] at hmem2
          simp only [List.mem_singleton, Prod.mk.injEq] at hmem2
          simpa [eventTid] using hmem2.1
        · exact h3 ev hev' hor
    | finishTicket tid s _ hmem =>
      by_cases hsg : s = sig
      · subst hsg
        rw [List.filter_cons] at hfin
        simp [isFinishFor] at hfin
      · have hfin' : (es.filter (isFinishFor sig)).length = 0 := by
          rw [List.filter_cons] at hfin
          simpa [isFinishFor, hsg] using hfin
        have hh' : holdersFor sig (st.holders.erase (tid, s)) = holdersFor sig st.holders :=
          holdersFor_erase sig (tid, s) st.holders (by simp [hsg])
        obtain ⟨h1, h2, h3⟩ := ih hfin' (hh'.trans hh)
        refine ⟨?_, h2, ?_⟩
        · rw [List.filter_cons]
          simp [isGrantedStartFor, h1]
        · intro ev hev hor
          rcases List.mem_cons.mp hev with rfl | hev'
          · simp [isOracleFor] at hor
          · exact h3 ev hev' hor

theorem coordFromIdle (sig : String) :
    ∀ {st : CoordState} {ops : List DiscEvent} {st' : CoordState},
      CoordTrace st ops st' →
      (ops.filter (isFinishFor sig)).length = 0 →
      holdersFor sig st.holders = [] →
      ((ops.filter (isStartFor sig)) = [] ∧
        (ops.filter (isGrantedStartFor sig)) = [] ∧
        holdersFor sig st'.holders = []) ∨
      (∃ t₀, (ops.filter (isGrantedStartFor sig)) = [DiscEvent.start t₀ sig true] ∧
        holdersFor sig st'.holders = [(t₀, sig)] ∧
        ∀ e ∈ ops, isOracleFor sig e = true → eventTid e = t₀) := by
  intro st ops st' htr
  induction htr with
  | nil => intro _ hh; exact Or.inl ⟨rfl, rfl, hh⟩
  | @cons st st'' stf e es hstep htail ih =>
    intro hfin hh
    cases hstep with
    | startGranted tid s _ hflight =>
      by_cases hsg : s = sig
      · subst hsg
        right
        have hfin' : (es.filter (isFinishFor s)).length = 0 := by
          rw [List.filter_cons] at hfin
          simpa [isFinishFor] using hfin
        have hh'' : holdersFor s ((tid, s) :: st.holders) = [(tid, s)] := by
          unfold holdersFor
          rw [List.filter_cons]
          simp only [beq_self_eq_true, if_pos]
          unfold holdersFor at hh
          rw [hh]
        obtain ⟨h1, h2, h3⟩ := coordAfterGrant s tid htail hfin' hh''
        refine ⟨tid, ?_, h2, ?_⟩
        · rw [List.filter_cons]
          simp [isGrantedStartFor, h1]
        · intro ev hev hor
          rcases List.mem_cons.mp hev with rfl | hev'
          · simp [isOracleFor] at hor
          · exact h3 ev hev' hor
      · have hfin' : (es.filter (isFinishFor sig)).length = 0 := by
          rw [List.filter_cons] at hfin
          simpa [isFinishFor] using hfin
        have hh' : holdersFor sig ((tid, s) :: st.holders) = holdersFor sig st.holders := by
          unfold holdersFor
          rw [List.filter_cons]
          simp [hsg]
        rcases ih hfin' (hh'.trans hh) with ⟨h1, h2, h3⟩ | ⟨t₀, h1, h2, h3⟩
        · left
          refine ⟨?_, ?_, h3⟩
          · rw [List.filter_cons]
            simp [isStartFor, hsg, h1]
          · rw [List.filter_cons]
            simp [isGrantedStartFor, hsg, h2]
        · right
          refine ⟨t₀, ?_, h2, ?_⟩
          · rw [List.filter_cons]
            simp [isGrantedStartFor, hsg, h1]
          · intro ev hev hor
            rcases List.mem_cons.mp hev with rfl | hev'
            · simp [isOracleFor] at hor
            · exact h3 ev hev' hor
    | startDenied tid s _ hflight =>
      by_cases hsg : s = sig
      · subst hsg
        have hcontra := (inFlight_false_iff st s).mpr hh
        rw [hcontra] at hflight
        simp at hflight
      · have hfin' : (es.filter (isFinishFor sig)).length = 0 := by
          rw [List.filter_cons] at hfin
          simpa [isFinishFor] using hfin
        rcases ih hfin' hh with ⟨h1, h2, h3⟩ | ⟨t₀, h1, h2, h3⟩
        · left
          refine ⟨?_, ?_, h3⟩
          · rw [List.filter_cons]
            simp [isStartFor, hsg, h1]
          · rw [List.filter_cons]
            simp [isGrantedStartFor, hsg, h2]
        · right
          refine ⟨t₀, ?_, h2, ?_⟩
          · rw [List.filter_cons]
            simp [isGrantedStartFor, hsg, h1]
          · intro ev hev hor
            rcases List.mem_cons.mp hev with rfl | hev'
            · simp [isOracleFor] at hor
            · exact h3 ev hev' hor
    | oracleCall tid s _ hmem =>
      by_cases hsg : s = sig
      · subst hsg
        have hmem2 : (tid, s) ∈ holdersFor s st.holders :=
          List.mem_filter.mpr ⟨hmem, by simp⟩
        rw [hh] at hmem2
        simp at hmem2
      · have hfin' : (es.filter (isFinishFor sig)).length = 0 := by
          rw [List.filter_cons] at hfin
          simpa [isFinishFor] using hfin
        rcases ih hfin' hh with ⟨h1, h2, h3⟩ | ⟨t₀, h1, h2, h3⟩
        · left
          refine ⟨?_, ?_, h3⟩
          · rw [List.filter_cons]
            simp [isStartFor, h1]
          · rw [List.filter_cons]
            simp [isGrantedStartFor, h2]
        · right
          refine ⟨t₀, ?_, h2, ?_⟩
          · rw [List.filter_cons]
            simp [isGrantedStartFor, h1]
          · intro ev hev hor
            rcases List.mem_cons.mp hev with rfl | hev'
            · have : s = sig := by simpa [isOracleFor] using hor
              exact absurd this hsg
            · exact h3 ev hev' hor
    | finishTicket tid s _ hmem =>
      by_cases hsg : s = sig
      · subst hsg
        rw [List.filter_cons] at hfin
        simp [isFinishFor] at hfin
      · have hfin' : (es.filter (isFinishFor sig)).length = 0 := by
          rw [List.filter_cons] at hfin
          simpa [isFinishFor, hsg] using hfin
        have hh' : holdersFor sig (st.holders.erase (tid, s)) = holdersFor sig st.holders :=
          holdersFor_erase sig (tid, s) st.holders (by simp [hsg])
        rcases ih hfin' (hh'.trans hh) with ⟨h1, h2, h3⟩ | ⟨t₀, h1, h2, h3⟩
        · left
          refine ⟨?_, ?_, h3⟩
          · rw [List.filter_cons]
            simp [isStartFor, h1]
          · rw [List.filter_cons]
            simp [isGrantedStartFor, h2]
        · right
          refine ⟨t₀, ?_, h2, ?_⟩
          · rw [List.filter_cons]
            simp [isGrantedStartFor, h1]
          · intro ev hev hor
            rcases List.mem_cons.mp hev with rfl | hev'
            · simp [isOracleFor] at hor
            · exact h3 ev hev' hor

/-- Claim C4: under concurrent misses for the same unknown signature, the
coordinator grants exactly one discovery ticket: in every run with at least
one StartDiscovery attempt for the signature and no FinishDiscovery yet,
exactly one start is granted, at most one ticket for the signature is
active at the end, and every oracle request for the signature belongs to
the single granted thread. -/
theorem singleflight_one_oracle_request (sig : String) (ops : List DiscEvent)
    (stf : CoordState) (htrace : CoordTrace initCoord ops stf)
    (hnofin : (ops.filter (isFinishFor sig)).length = 0)
    (hattempt : 0 < (ops.filter (isStartFor sig)).length) :
    (ops.filter (isGrantedStartFor sig)).length = 1 ∧
    (holdersFor sig stf.holders).length ≤ 1 ∧
    ∃ t₀, DiscEvent.start t₀ sig true ∈ ops ∧
      ∀ e ∈ ops, isOracleFor sig e = true → eventTid e = t₀ := by
  rcases coordFromIdle sig htrace hnofin rfl with ⟨h1, _, _⟩ | ⟨t₀, h1, h2, h3⟩
  · rw [h1] at hattempt
    simp at hattempt
  · refine ⟨by rw [h1]; rfl, by rw [h2]; simp, t₀, ?_, h3⟩
    have : DiscEvent.start t₀ sig true ∈ ops.filter (isGrantedStartFor sig) := by
      rw [h1]
      simp
    exact List.mem_of_mem_filter this

/-- Witness for C4: two threads race on signature AA; the first start is
granted, the second denied, one oracle request follows. -/
theorem singleflight_one_oracle_request_witness :
    (([DiscEvent.start 0 "AA" true, DiscEvent.start 1 "AA" false,
        DiscEvent.oracle 0 "AA"].filter (isGrantedStartFor "AA")).length = 1) ∧
    (holdersFor "AA" (CoordState.mk [(0, "AA")]).holders).length ≤ 1 ∧
    ∃ t₀, DiscEvent.start t₀ "AA" true ∈
        [DiscEvent.start 0 "AA" true, DiscEvent.start 1 "AA" false,
          DiscEvent.oracle 0 "AA"] ∧
      ∀ e ∈ [DiscEvent.start 0 "AA" true, DiscEvent.start 1 "AA" false,
          DiscEvent.oracle 0 "AA"],
        isOracleFor "AA" e = true → eventTid e = t₀ :=
  singleflight_one_oracle_request "AA"
    [DiscEvent.start 0 "AA" true, DiscEvent.start 1 "AA" false, DiscEvent.oracle 0 "AA"]
    (CoordState.mk [(0, "AA")])
    (CoordTrace.cons (CoordStep.startGranted 0 "AA" initCoord rfl)
      (CoordTrace.cons (CoordStep.startDenied 1 "AA" (CoordState.mk [(0, "AA")]) rfl)
        (CoordTrace.cons
          (CoordStep.oracleCall 0 "AA" (CoordState.mk [(0, "AA")]) (by simp))
          (CoordTrace.nil (CoordState.mk [(0, "AA")])))))
    (by decide) (by decide)

/-! ## Sanitizer lemmas -/

theorem replaceFuncCalls_nil : replaceFuncCalls [] = [] := by
  unfold replaceFuncCalls
  rfl

theorem replaceFuncCalls_some {l rem : List Char} (h : matchFuncAt l = some rem) :
    replaceFuncCalls l = funcParseChars ++ replaceFuncCalls rem := by
  conv_lhs => unfold replaceFuncCalls
  split
  · rename_i rem' heq
    rw [h] at heq
    injection heq with heq
    rw [heq]
  · rename_i heq
    rw [h] at heq
    exact absurd heq (by simp)

theorem replaceFuncCalls_cons_none {c : Char} {l : List Char}
    (h : matchFuncAt (c :: l) = none) :
    replaceFuncCalls (c :: l) = c :: replaceFuncCalls l := by
  conv_lhs => unfold replaceFuncCalls
  split
  · rename_i rem' heq
    rw [h] at heq
    exact absurd heq (by simp)
  · rfl

theorem stripLit_append :
    ∀ p l r : List Char, stripLit p l = some r → l = p ++ r := by
  intro p
  induction p with
  | nil =>
    intro l r h
    simp [stripLit] at h
    simp [h]
  | cons p ps ih =>
    intro l r h
    cases l with
    | nil => simp [stripLit] at h
    | cons c cs =>
      simp only [stripLit] at h
      split at h
      · rename_i hc
        subst hc
        rw [List.cons_append]
        rw [← ih cs r h]
      · simp at h

theorem takeIdent_split : ∀ l : List Char, l = (takeIdent l).1 ++ (takeIdent l).2 := by
  intro l
  induction l with
  | nil => rfl
  | cons c cs ih =>
    simp only [takeIdent]
    split
    · simp only [List.cons_append]
      rw [← ih]
    · simp

theorem matchFuncAt_suffix {l rem : List Char} (h : matchFuncAt l = some rem) :
    ∃ pre, pre ≠ [] ∧ l = pre ++ rem := by
  unfold matchFuncAt at h
  cases hs : stripLit funcSpaceChars l with
  | none => rw [hs] at h; simp at h
  | some l₁ =>
    rw [hs] at h
    simp only at h
    have hl₁ := stripLit_append funcSpaceChars l l₁ hs
    have hsplit := takeIdent_split l₁
    cases hi : takeIdent l₁ with
    | mk ident l₂ =>
      rw [hi] at h hsplit
      cases ident with
      | nil => simp at h
      | cons i is =>
        cases l₂ with
        | nil => simp at h
        | cons c cs =>
          simp only at h
          split at h
          · rename_i hc
            subst hc
            injection h with h
            subst h
            refine ⟨funcSpaceChars ++ (i :: is) ++ ['('], by simp [funcSpaceChars], ?_⟩
            rw [hl₁, hsplit]
            simp
          · simp at h

theorem matchFuncAt_none_of_ne_f {c : Char} (l : List Char) (hc : c ≠ 'f') :
    matchFuncAt (c :: l) = none := by
  have hs : stripLit funcSpaceChars (c :: l) = none := by
    have hfc : funcSpaceChars = 'f' :: ['u', 'n', 'c', ' '] := rfl
    rw [hfc]
    simp only [stripLit]
    rw [if_neg hc]
  unfold matchFuncAt
  rw [hs]

theorem replaceFuncCalls_noF_append (p : List Char) :
    ∀ rest, (∀ c ∈ p, c ≠ 'f') →
      replaceFuncCalls (p ++ rest) = p ++ replaceFuncCalls rest := by
  induction p with
  | nil => intro rest _; rfl
  | cons c p' ih =>
    intro rest hp
    have hc : c ≠ 'f' := hp c (List.mem_cons_self c p')
    rw [List.cons_append,
      replaceFuncCalls_cons_none (matchFuncAt_none_of_ne_f (p' ++ rest) hc),
      ih rest (fun d hd => hp d (List.mem_cons_of_mem c hd))]
    rfl

theorem containsSeq_iff_occurs (pat : List Char) :
    ∀ l, containsSeq pat l = true ↔ pat <:+: l := by
  intro l
  induction l with
  | nil =>
    simp only [containsSeq]
    constructor
    · intro h
      have : pat = [] := by simpa using h
      simp [this]
    · intro h
      have : pat = [] := by simpa using h
      simp [this]
  | cons c rest ih =>
    simp only [containsSeq, Bool.or_eq_true, List.isPrefixOf_iff_prefix, ih,
      List.infix_cons_iff]

theorem prefix_reflect :
    ∀ (n : Nat) (l q : List Char), l.length ≤ n → (∀ c ∈ q, c ≠ 'f') →
      q <+: replaceFuncCalls l → q <+: l := by
  intro n
  induction n with
  | zero =>
    intro l q hl _ h
    have : l = [] := List.length_eq_zero.mp (Nat.le_zero.mp hl)
    subst this
    rw [replaceFuncCalls_nil] at h
    rw [List.prefix_nil.mp h]
  | succ n ih =>
    intro l q hl hq h
    cases hm : matchFuncAt l with
    | some rem =>
      rw [replaceFuncCalls_some hm] at h
      cases q with
      | nil => exact List.nil_prefix
      | cons q₀ q' =>
        have : q₀ = 'f' := by
          have hfp : funcParseChars ++ replaceFuncCalls rem =
              'f' :: (['u', 'n', 'c', ' ', 'P', 'a', 'r', 's', 'e', '('] ++
                replaceFuncCalls rem) := rfl
          rw [hfp] at h
          exact (List.cons_prefix_cons.mp h).1
        exact absurd this (hq q₀ (List.mem_cons_self _ _))
    | none =>
      cases l with
      | nil =>
        rw [replaceFuncCalls_nil] at h
        rw [List.prefix_nil.mp h]
      | cons c rest =>
        rw [replaceFuncCalls_cons_none hm] at h
        cases q with
        | nil => exact List.nil_prefix
        | cons q₀ q' =>
          obtain ⟨hq₀, hq'⟩ := List.cons_prefix_cons.mp h
          subst hq₀
          have hrest : q' <+: rest :=
            ih rest q' (by simp only [List.length_cons] at hl; omega)
              (fun d hd => hq d (List.mem_cons_of_mem _ hd)) hq'
          exact List.cons_prefix_cons.mpr ⟨rfl, hrest⟩

theorem replaceFuncCalls_no_new_pd :
    ∀ (n : Nat) (l : List Char), l.length ≤ n → ¬ pdChars <:+: l →
      ¬ pdChars <:+: replaceFuncCalls l := by
  intro n
  induction n with
  | zero =>
    intro l hl hni
    have : l = [] := List.length_eq_zero.mp (Nat.le_zero.mp hl)
    subst this
    rw [replaceFuncCalls_nil]
    exact hni
  | succ n ih =>
    intro l hl hni
    cases hm : matchFuncAt l with
    | none =>
      cases l with
      | nil =>
        rw [replaceFuncCalls_nil]
        exact hni
      | cons c rest =>
        rw [replaceFuncCalls_cons_none hm]
        intro hinf
        rcases List.infix_cons_iff.mp hinf with hpre | htail
        · have : pdChars <+: c :: rest :=
            prefix_reflect (n + 1) (c :: rest) pdChars hl (by decide)
              (by rw [replaceFuncCalls_cons_none hm]; exact hpre)
          exact hni this.isInfix
        · have hnr : ¬ pdChars <:+: rest := fun hc => hni (List.infix_cons hc)
          exact ih rest (by simp only [List.length_cons] at hl; omega) hnr htail
    | some rem =>
      obtain ⟨pre, hpre_ne, hdecomp⟩ := matchFuncAt_suffix hm
      have hrem_len : rem.length ≤ n := by
        have : l.length = pre.length + rem.length := by rw [hdecomp]; simp
        have hpos : 0 < pre.length := List.length_pos.mpr hpre_ne
        omega
      have hnrem : ¬ pdChars <:+: rem := by
        intro hc
        rcases hc with ⟨s, t, hst⟩
        exact hni ⟨pre ++ s, t, by rw [hdecomp, ← hst]; simp⟩
      rw [replaceFuncCalls_some hm]
      intro hinf
      rcases hinf with ⟨a, b, hab⟩
      by_cases hlen : funcParseChars.length ≤ a.length
      · have hdrop := congrArg (List.drop funcParseChars.length) hab
        rw [List.append_assoc, List.drop_append_of_le_length hlen,
          List.drop_left] at hdrop
        exact ih rem hrem_len hnrem
          ⟨a.drop funcParseChars.length, b, by rw [List.append_assoc]; exact hdrop⟩
      · have hab' : a ++ (pdChars ++ b) = funcParseChars ++ replaceFuncCalls rem := by
          rw [← List.append_assoc]
          exact hab
        have hleft : (a ++ (pdChars ++ b))[a.length]? = some 'p' := by
          rw [List.getElem?_append_right (le_refl a.length)]
          simp [pdChars]
        have hright : (funcParseChars ++ replaceFuncCalls rem)[a.length]? = some 'p' := by
          rw [← hab']
          exact hleft
        have hmem : 'p' ∈ funcParseChars := by
          rw [List.getElem?_append, if_pos (by omega)] at hright
          exact List.getElem?_mem hright
        exact absurd hmem (by decide)

theorem dropToFirst_sound (pat : List Char) :
    ∀ l, containsSeq pat l = true → ∃ rest, dropToFirst pat l = pat ++ rest := by
  intro l
  induction l with
  | nil =>
    intro h
    simp only [containsSeq] at h
    have : pat = [] := by simpa using h
    subst this
    exact ⟨[], rfl⟩
  | cons c rest ih =>
    intro h
    simp only [containsSeq, Bool.or_eq_true] at h
    unfold dropToFirst
    by_cases hp : pat.isPrefixOf (c :: rest)
    · rw [if_pos hp]
      obtain ⟨r, hr⟩ := List.isPrefixOf_iff_prefix.mp hp
      exact ⟨r, hr.symm⟩
    · rw [if_neg hp]
      rcases h with h | h
      · exact absurd h hp
      · exact ih h

theorem keepThroughLastBrace_append (p : List Char) :
    ∀ l, (∀ c ∈ p, c ≠ braceChar) → braceChar ∈ l →
      keepThroughLastBrace (p ++ l) = p ++ keepThroughLastBrace l := by
  induction p with
  | nil => intro l _ _; rfl
  | cons c p' ih =>
    intro l hp hl
    rw [List.cons_append]
    conv_lhs => unfold keepThroughLastBrace
    rw [if_pos (by simp [hl]), ih l (fun d hd => hp d (List.mem_cons_of_mem c hd)) hl,
      List.cons_append]

theorem keepThroughLastBrace_isPref :
    ∀ l, keepThroughLastBrace l <+: l := by
  intro l
  induction l with
  | nil => exact List.nil_prefix
  | cons c rest ih =>
    unfold keepThroughLastBrace
    by_cases hb : braceChar ∈ rest
    · rw [if_pos hb]
      exact List.cons_prefix_cons.mpr ⟨rfl, ih⟩
    · rw [if_neg hb]
      by_cases hc : c = braceChar
      · rw [if_pos hc]
        subst hc
        exact List.cons_prefix_cons.mpr ⟨rfl, List.nil_prefix⟩
      · rw [if_neg hc]
        exact List.nil_prefix

theorem sanitizeStep3_keeps_pd (l : List Char) (h : pdChars <+: l) :
    pdChars <+: sanitizeStep3 l := by
  unfold sanitizeStep3
  by_cases hb : braceChar ∈ l
  · rw [if_pos hb]
    rcases h with ⟨r, hr⟩
    subst hr
    have hbr : braceChar ∈ r := by
      rcases List.mem_append.mp hb with hin | hin
      · exact absurd hin (by decide)
      · exact hin
    rw [keepThroughLastBrace_append pdChars r (by decide) hbr]
    exact ⟨keepThroughLastBrace r, rfl⟩
  · rw [if_neg hb]
    exact h

theorem sanitizeStep3_no_new_pd (l : List Char) (h : ¬ pdChars <:+: l) :
    ¬ pdChars <:+: sanitizeStep3 l := by
  unfold sanitizeStep3
  by_cases hb : braceChar ∈ l
  · rw [if_pos hb]
    intro hc
    exact h (hc.trans (keepThroughLastBrace_isPref l).isInfix)
  · rw [if_neg hb]
    exact h

theorem sanitizeStep4_pd (l : List Char)
    (h : pdChars <+: l ∨ ¬ pdChars <:+: l) :
    pdChars <+: sanitizeStep4 l := by
  unfold sanitizeStep4
  rcases h with h | h
  · rw [if_pos ((containsSeq_iff_occurs pdChars l).mpr h.isInfix)]
    exact h
  · rw [if_neg (by rw [containsSeq_iff_occurs]; simpa using h)]
    exact ⟨'\n' :: '\n' :: l, rfl⟩

theorem trimSpaceChars_keeps_pd (l : List Char) (h : pdChars <+: l) :
    pdChars <+: trimSpaceChars l := by
  rcases h with ⟨r, hr⟩
  subst hr
  unfold trimSpaceChars
  have hdl : (pdChars ++ r).dropWhile isSpaceChar = pdChars ++ r := by
    have : pdChars ++ r = 'p' :: ("ackage dynamic".toList ++ r) := rfl
    rw [this, List.dropWhile_cons]
    rw [if_neg (by decide)]
  rw [hdl, List.reverse_append, List.dropWhile_append]
  by_cases he : (r.reverse.dropWhile isSpaceChar).isEmpty
  · rw [if_pos he]
    have : pdChars.reverse.dropWhile isSpaceChar = pdChars.reverse := by decide
    rw [this, List.reverse_reverse]
  · rw [if_neg he, List.reverse_append, List.reverse_reverse]
    exact ⟨(r.reverse.dropWhile isSpaceChar).reverse, rfl⟩

/-- Claim C7: for every oracle response string, the sanitized source
begins with the package declaration "package dynamic": everything before
its first occurrence is discarded (step 1 of sanitizeAiCode) and the
declaration is prepended when absent (step 4); the intermediate rewrites
never destroy or relocate the leading occurrence. -/
theorem sanitizeAiCode_starts_with_package_dynamic (s : String) :
    pdChars <+: (sanitizeAiCode s).data := by
  show pdChars <+: sanitizeAiCodeChars s.data
  unfold sanitizeAiCodeChars
  apply trimSpaceChars_keeps_pd
  apply sanitizeStep4_pd
  by_cases hc : containsSeq pdChars s.data = true
  · left
    apply sanitizeStep3_keeps_pd
    unfold sanitizeStep1
    rw [if_pos hc]
    obtain ⟨rest, hrest⟩ := dropToFirst_sound pdChars s.data hc
    rw [hrest, replaceFuncCalls_noF_append pdChars rest (by decide)]
    exact ⟨replaceFuncCalls rest, rfl⟩
  · right
    apply sanitizeStep3_no_new_pd
    unfold sanitizeStep1
    rw [if_neg (by simpa using hc)]
    apply replaceFuncCalls_no_new_pd s.data.length s.data (le_refl _)
    intro hinf
    exact hc ((containsSeq_iff_occurs pdChars s.data).mpr hinf)

end OmniBridge
